import Mathlib

/-!
# goop: attribute-based queries over a parsed HTML tree

A shallow embedding of `goop.go` (package `goop`, built on `golang.org/x/net/html`)
together with theorems about its query functions.

## Modelling conventions

* A value of type `Node` stands for a Go `*html.Node`: it is either the nil pointer
  (`Node.nil`) or points at a node record (`Node.mk`) carrying the fields the package
  reads: `Type`, `Data`, `Attr`, `FirstChild` and `NextSibling`.  The tree is finite and
  acyclic by construction, and a node is identified with the subtree it roots.
* A Go slice `[]html.Attribute` is an `Option (List Attribute)`: `none` is the nil slice,
  `some []` an empty non-nil slice.
* Dereferencing the nil pointer is a run-time panic; every function therefore returns in
  `Except Panic`.
* Go strings are Lean strings.  The two separators the package passes to `strings.Split`
  are the one-byte strings `";"` and `" "`, so `Split` is modelled for a one-character
  separator.
* The callback of `ParseNodeAttr` is a state transformer on an arbitrary state that
  does not modify the tree.
-/

namespace Goop

/-! ## Data model (`golang.org/x/net/html`) -/

/-- The `html.NodeType` enumeration. -/
inductive NodeType where
  | ErrorNode
  | TextNode
  | DocumentNode
  | ElementNode
  | CommentNode
  | DoctypeNode
  deriving DecidableEq, Repr

/-- The `html.Attribute` record: a namespace, a key and a value. -/
structure Attribute where
  Namespace : String
  Key : String
  Val : String
  deriving DecidableEq, Repr

/-- A `*html.Node`: the nil pointer, or a pointer to a node record with its type, data,
attribute slice, first child and next sibling. -/
inductive Node where
  | nil : Node
  | mk (Typ : NodeType) (Data : String) (Attr : Option (List Attribute))
      (FirstChild : Node) (NextSibling : Node) : Node
  deriving DecidableEq, Repr

/-- The run-time failures a call can end in. -/
inductive Panic where
  | nilDereference
  deriving DecidableEq, Repr

deriving instance DecidableEq for Except

/-- The elements a `range` over an attribute slice iterates over (none for a nil slice). -/
def sliceElems (s : Option (List Attribute)) : List Attribute :=
  match s with
  | none => []
  | some l => l

/-- The attribute pairs of a node (none for the nil pointer). -/
def Node.attrs : Node → List Attribute
  | .nil => []
  | .mk _ _ a _ _ => sliceElems a

/-! ## `strings.Split` for a one-character separator -/

/-- Cut a character list at every occurrence of `sep`; `n` occurrences give `n + 1`
pieces, and the empty list gives the single empty piece. -/
def splitChars (sep : Char) : List Char → List (List Char)
  | [] => [[]]
  | c :: cs =>
    if c = sep then [] :: splitChars sep cs
    else (c :: (splitChars sep cs).headD []) :: (splitChars sep cs).tail

/-- The call `strings.Split(s, sep)` for a separator of one character. -/
def Split (s : String) (sep : Char) : List String :=
  (splitChars sep s.data).map String.mk

/-! ## `goop.go` -/

/-- The `range node.Attr` loop of `Attr`. -/
def Attr.range (attr : String) : List Attribute → String
  | [] => ""
  | a :: rest => if a.Key = attr then a.Val else Attr.range attr rest

/-- `Attr` returns the node's value for the named attr, otherwise empty. -/
def Attr (attr : String) : Node → Except Panic String
  | .nil => .error .nilDereference
  | .mk _ _ a _ _ => .ok (Attr.range attr (sliceElems a))

/-- The inner `range vals` loop of `HasAttr`. -/
def HasAttr.vals (value : String) : List String → Bool
  | [] => false
  | val :: rest => if val = value then true else HasAttr.vals value rest

/-- The outer `range node.Attr` loop of `HasAttr`. -/
def HasAttr.range (attr value : String) : List Attribute → Bool
  | [] => false
  | a :: rest =>
    if a.Key = attr then
      if HasAttr.vals value (if attr = "style" then Split a.Val ';' else Split a.Val ' ')
      then true
      else HasAttr.range attr value rest
    else HasAttr.range attr value rest

/-- `HasAttr` returns true if the named attr of the given node contains the supplied
value, otherwise false.  The guard evaluates `node.Attr == nil` before `node == nil`, so
the nil pointer is dereferenced. -/
def HasAttr (attr value : String) : Node → Except Panic Bool
  | .nil => .error .nilDereference
  | .mk _ _ none _ _ => .ok false
  | .mk _ _ (some l) _ _ => .ok (HasAttr.range attr value l)

mutual
/-- `FindNodeAttr` finds and returns the first node in the input node matching the
supplied attribute and value. -/
def FindNodeAttr (attr value : String) : Node → Except Panic Node
  | .nil => .error .nilDereference
  | .mk t d a fc ns =>
    match HasAttr attr value (.mk t d a fc ns) with
    | .error e => .error e
    | .ok true => .ok (.mk t d a fc ns)
    | .ok false => FindNodeAttr.loop attr value fc
termination_by n => (sizeOf n, 0)
/-- The loop `for c := in.FirstChild; c != nil; c = c.NextSibling` of `FindNodeAttr`,
started at `c`. -/
def FindNodeAttr.loop (attr value : String) : Node → Except Panic Node
  | .nil => .ok .nil
  | .mk t d a fc ns =>
    match FindNodeAttr attr value (.mk t d a fc ns) with
    | .error e => .error e
    | .ok m => if m ≠ .nil then .ok m else FindNodeAttr.loop attr value ns
termination_by c => (sizeOf c, 1)
end

mutual
/-- `FindElementType` finds and returns the first element in the input node with the
supplied type. -/
def FindElementType (nodeType : String) : Node → Except Panic Node
  | .nil => .error .nilDereference
  | .mk t d a fc ns =>
    if t = NodeType.ElementNode ∧ d = nodeType then .ok (.mk t d a fc ns)
    else FindElementType.loop nodeType fc
termination_by n => (sizeOf n, 0)
/-- The loop `for c := in.FirstChild; c != nil; c = c.NextSibling` of `FindElementType`,
started at `c`. -/
def FindElementType.loop (nodeType : String) : Node → Except Panic Node
  | .nil => .ok .nil
  | .mk t d a fc ns =>
    match FindElementType nodeType (.mk t d a fc ns) with
    | .error e => .error e
    | .ok m => if m ≠ .nil then .ok m else FindElementType.loop nodeType ns
termination_by c => (sizeOf c, 1)
end

mutual
/-- `ParseNodeAttr` traverses the dom tree, and executes the parse function on each node
with the matching value for the given attr.  The effect of the callback is a
transformation of the state `σ`; the result is the state after the traversal. -/
def ParseNodeAttr {σ : Type} (attr value : String) (parse : Node → σ → σ) :
    Node → σ → Except Panic σ
  | .nil, _ => .error .nilDereference
  | .mk t d a fc ns, s =>
    match HasAttr attr value (.mk t d a fc ns) with
    | .error e => .error e
    | .ok true => ParseNodeAttr.loop attr value parse fc (parse (.mk t d a fc ns) s)
    | .ok false => ParseNodeAttr.loop attr value parse fc s
termination_by n => (sizeOf n, 0)
/-- The loop `for c := in.FirstChild; c != nil; c = c.NextSibling` of `ParseNodeAttr`,
started at `c`. -/
def ParseNodeAttr.loop {σ : Type} (attr value : String) (parse : Node → σ → σ) :
    Node → σ → Except Panic σ
  | .nil, s => .ok s
  | .mk t d a fc ns, s =>
    match ParseNodeAttr attr value parse (.mk t d a fc ns) s with
    | .error e => .error e
    | .ok s1 => ParseNodeAttr.loop attr value parse ns s1
termination_by c => (sizeOf c, 1)
end

/-- `HasClass` returns true if the supplied node has the given html class. -/
def HasClass (c : String) (node : Node) : Except Panic Bool :=
  HasAttr "class" c node

/-- `FindNodeClass` finds and returns the first node in the input node with the given
html class. -/
def FindNodeClass (cls : String) (n : Node) : Except Panic Node :=
  FindNodeAttr "class" cls n

/-- `HasId` returns true if the supplied node has the given html id. -/
def HasId (id : String) (node : Node) : Except Panic Bool :=
  HasAttr "id" id node

/-- `FindNodeId` finds and returns the first node in the input node with the given html
id. -/
def FindNodeId (id : String) (n : Node) : Except Panic Node :=
  FindNodeAttr "id" id n

/-! ## Document order -/

/-- The nodes reached from `c` along `NextSibling`, each followed by its descendants, in
document order. -/
def Node.forest : Node → List Node
  | .nil => []
  | .mk t d a fc ns => .mk t d a fc ns :: (Node.forest fc ++ Node.forest ns)

/-- The pre-order listing of the subtree rooted at a node: the node itself, then the
subtrees of its children from `FirstChild` along `NextSibling`. -/
def Node.preorder : Node → List Node
  | .nil => []
  | .mk t d a fc ns => .mk t d a fc ns :: Node.forest fc

/-- The sibling chain starting at `c`: `c`, `c.NextSibling`, and so on. -/
def Node.chain : Node → List Node
  | .nil => []
  | .mk t d a fc ns => .mk t d a fc ns :: Node.chain ns

/-- The children of a node, from `FirstChild` along `NextSibling`. -/
def Node.children : Node → List Node
  | .nil => []
  | .mk _ _ _ fc _ => Node.chain fc

/-- The number of nodes of the subtree rooted at a node. -/
def Node.size (n : Node) : Nat :=
  (Node.preorder n).length

/-- Run a search on the nodes of a list in turn, stopping at the first failure or
non-nil result. -/
def firstFound (f : Node → Except Panic Node) : List Node → Except Panic Node
  | [] => .ok .nil
  | c :: cs =>
    match f c with
    | .error e => .error e
    | .ok m => if m ≠ .nil then .ok m else firstFound f cs

/-- Run a visitor on the nodes of a list in turn, threading the state and stopping at
the first failure. -/
def visitEach {σ : Type} (f : Node → σ → Except Panic σ) : List Node → σ → Except Panic σ
  | [], s => .ok s
  | c :: cs, s =>
    match f c s with
    | .error e => .error e
    | .ok s1 => visitEach f cs s1

/-- The value a search returns for the outcome of a list lookup: the node found, or the
nil pointer. -/
def orNil (o : Option Node) : Node :=
  match o with
  | some n => n
  | none => .nil

/-- The predicate "is an element with this label" tested by `FindElementType`. -/
def Node.isElement (label : String) : Node → Bool
  | .nil => false
  | .mk t d _ _ _ => decide (t = NodeType.ElementNode ∧ d = label)

/-- The predicate "`HasAttr` returns true" on a node. -/
def Node.hasAttr (key value : String) (n : Node) : Bool :=
  decide (HasAttr key value n = .ok true)

/-- The separator `HasAttr` splits the value of `key` on. -/
def delim (key : String) : Char :=
  if key = "style" then ';' else ' '

/-- The tokens of the first pair carrying `key`, the pair whose value `Attr` returns;
`none` when no pair carries the key. -/
def firstPairTokens (key : String) (node : Node) : Option (List String) :=
  (node.attrs.find? (fun p => decide (p.Key = key))).map (fun p => Split p.Val (delim key))

/-! ## Sample documents -/

/-- An attribute pair in the empty namespace. -/
def attr (k v : String) : Attribute :=
  { Namespace := "", Key := k, Val := v }

/-- An element node with the given label, attributes, first child and next sibling. -/
def elem (d : String) (a : List Attribute) (fc ns : Node) : Node :=
  .mk .ElementNode d (some a) fc ns

/-- A text node (nil attribute slice, no children) followed by a sibling. -/
def text (d : String) (ns : Node) : Node :=
  .mk .TextNode d none .nil ns

/-- The element `<span id="s1" class="a b" data-test="t">`. -/
def spanS1 : Node :=
  elem "span" [attr "id" "s1", attr "class" "a b", attr "data-test" "t"] .nil .nil

/-- The element `<span id="s2" class="b" style="display:none;color:red">`. -/
def spanS2 : Node :=
  elem "span" [attr "id" "s2", attr "class" "b", attr "style" "display:none;color:red"]
    .nil .nil

/-- The element `<div class="x" data-test="t">` holding `spanS1`, followed by `spanS2`. -/
def divX : Node :=
  elem "div" [attr "class" "x", attr "data-test" "t"] spanS1 spanS2

/-- A document: a `div` without attributes whose children are a text node reading
`span`, then `divX`, then `spanS2`; the `div` itself has a next sibling of class `b`. -/
def sampleDoc : Node :=
  elem "div" [] (text "span" divX) (elem "p" [attr "class" "b"] .nil .nil)

/-- The element `<span id="x y">`, with an id of two words. -/
def multiId : Node :=
  elem "span" [attr "id" "x y"] .nil .nil

/-- The element `<p style="color: red;margin: 0 auto">`, whose declarations hold spaces. -/
def styleSpaced : Node :=
  elem "p" [attr "style" "color: red;margin: 0 auto"] .nil .nil

/-- The element `<div class="">`, whose class is present and empty. -/
def emptyClass : Node :=
  elem "div" [attr "class" ""] .nil .nil

/-- The element `<div class="a  b">`, with two adjacent spaces in the class. -/
def gapClass : Node :=
  elem "div" [attr "class" "a  b"] .nil .nil

/-- The element `<p style="color:red;">`, whose style ends with the separator. -/
def styleTrailing : Node :=
  elem "p" [attr "style" "color:red;"] .nil .nil

/-- A node carrying the key `class` twice. -/
def dupClass : Node :=
  elem "div" [attr "class" "a", attr "class" "b"] .nil .nil

/-! ## Auxiliary facts -/

theorem HasAttr_mk (k v : String) (t : NodeType) (d : String) (a : Option (List Attribute))
    (fc ns : Node) :
    HasAttr k v (.mk t d a fc ns) = .ok (HasAttr.range k v (sliceElems a)) := by
  cases a <;> rfl

theorem hasAttr_mk (k v : String) (t : NodeType) (d : String) (a : Option (List Attribute))
    (fc ns : Node) :
    Node.hasAttr k v (.mk t d a fc ns) = HasAttr.range k v (sliceElems a) := by
  simp [Node.hasAttr, HasAttr_mk]

theorem forest_mk (t : NodeType) (d : String) (a : Option (List Attribute)) (fc ns : Node) :
    Node.forest (.mk t d a fc ns) = Node.preorder (.mk t d a fc ns) ++ Node.forest ns := by
  simp [Node.forest, Node.preorder]

theorem forest_ne_nil : ∀ (c m : Node), m ∈ Node.forest c → m ≠ .nil := by
  intro c
  induction c with
  | nil => intro m hm; simp [Node.forest] at hm
  | mk t d a fc ns ihc ihs =>
    intro m hm
    simp only [Node.forest, List.mem_cons, List.mem_append] at hm
    rcases hm with h | h | h
    · subst h; simp
    · exact ihc m h
    · exact ihs m h

theorem preorder_ne_nil (n m : Node) (hm : m ∈ Node.preorder n) : m ≠ .nil := by
  cases n with
  | nil => simp [Node.preorder] at hm
  | mk t d a fc ns =>
    simp only [Node.preorder, List.mem_cons] at hm
    rcases hm with h | h
    · subst h; simp
    · exact forest_ne_nil fc m h

/-- The listing `Node.forest` is the concatenation of the pre-order listings of the
nodes of the sibling chain. -/
theorem forest_eq_chain (c : Node) :
    Node.forest c = (Node.chain c).flatMap Node.preorder := by
  induction c with
  | nil => simp [Node.forest, Node.chain]
  | mk t d a fc ns _ ihs =>
    rw [forest_mk, Node.chain, List.flatMap_cons, ihs]

/-- The pre-order listing is the node itself followed by the pre-order listings of its
children, from `FirstChild` along `NextSibling`. -/
theorem preorder_eq_children (n : Node) (h : n ≠ .nil) :
    Node.preorder n = n :: (Node.children n).flatMap Node.preorder := by
  cases n with
  | nil => exact absurd rfl h
  | mk t d a fc ns => simp [Node.preorder, Node.children, forest_eq_chain]

/-- Both the loop and the function of `FindNodeAttr` return the first match of the
listing they walk. -/
theorem FindNodeAttr_aux (k v : String) : ∀ c : Node,
    FindNodeAttr.loop k v c = .ok (orNil ((Node.forest c).find? (Node.hasAttr k v))) ∧
    (c ≠ .nil →
      FindNodeAttr k v c = .ok (orNil ((Node.preorder c).find? (Node.hasAttr k v)))) := by
  intro c
  induction c with
  | nil =>
    constructor
    · simp [FindNodeAttr.loop, Node.forest, orNil]
    · intro h; exact absurd rfl h
  | mk t d a fc ns ihc ihs =>
    have hP : FindNodeAttr k v (.mk t d a fc ns)
        = .ok (orNil ((Node.preorder (.mk t d a fc ns)).find? (Node.hasAttr k v))) := by
      rw [FindNodeAttr, HasAttr_mk]
      simp only [Node.preorder, List.find?_cons, hasAttr_mk]
      cases hb : HasAttr.range k v (sliceElems a)
      · simpa using ihc.1
      · simp [orNil]
    refine ⟨?_, fun _ => hP⟩
    rw [FindNodeAttr.loop, hP, forest_mk, List.find?_append]
    cases hf : (Node.preorder (.mk t d a fc ns)).find? (Node.hasAttr k v) with
    | none => simpa [orNil] using ihs.1
    | some x =>
      have := preorder_ne_nil _ x (List.mem_of_find?_eq_some hf)
      simp [orNil, this]

/-! ## Tree search -/

/-- C1: on a present node `FindNodeAttr` returns the first node of the pre-order listing
of the subtree on which `HasAttr` is true, the nil pointer standing for "no such node";
in particular a matching root is returned itself.  The listing is the node itself, then
the listings of its children from `FirstChild` along `NextSibling`. -/
theorem FindNodeAttr_first_in_preorder (key value : String) (n : Node) (h : n ≠ .nil) :
    FindNodeAttr key value n
        = .ok (orNil ((Node.preorder n).find?
            (fun m => decide (HasAttr key value m = .ok true)))) ∧
      (HasAttr key value n = .ok true → FindNodeAttr key value n = .ok n) ∧
      Node.preorder n = n :: (Node.children n).flatMap Node.preorder := by
  have h1 := (FindNodeAttr_aux key value n).2 h
  refine ⟨h1, fun hm => ?_, preorder_eq_children n h⟩
  rw [h1]
  cases n with
  | nil => exact absurd rfl h
  | mk t d a fc ns =>
    have : Node.hasAttr key value (.mk t d a fc ns) = true := by simp [Node.hasAttr, hm]
    simp [Node.preorder, List.find?_cons, this, orNil]

theorem FindNodeAttr_first_in_preorder_witness :
    sampleDoc ≠ .nil ∧ FindNodeAttr "class" "b" sampleDoc = .ok spanS1 ∧
      HasAttr "class" "a" spanS1 = .ok true ∧ FindNodeAttr "class" "a" spanS1 = .ok spanS1 :=
  ⟨by decide,
   (FindNodeAttr_first_in_preorder "class" "b" sampleDoc (by decide)).1.trans (by decide),
   by decide,
   (FindNodeAttr_first_in_preorder "class" "a" spanS1 (by decide)).2.1 (by decide)⟩

/-- Both the loop and the function of `FindElementType` return the first element with the
label in the listing they walk. -/
theorem FindElementType_aux (l : String) : ∀ c : Node,
    FindElementType.loop l c = .ok (orNil ((Node.forest c).find? (Node.isElement l))) ∧
    (c ≠ .nil →
      FindElementType l c = .ok (orNil ((Node.preorder c).find? (Node.isElement l)))) := by
  intro c
  induction c with
  | nil =>
    constructor
    · simp [FindElementType.loop, Node.forest, orNil]
    · intro h; exact absurd rfl h
  | mk t d a fc ns ihc ihs =>
    have hP : FindElementType l (.mk t d a fc ns)
        = .ok (orNil ((Node.preorder (.mk t d a fc ns)).find? (Node.isElement l))) := by
      rw [FindElementType]
      simp only [Node.preorder, List.find?_cons, Node.isElement]
      by_cases hb : t = NodeType.ElementNode ∧ d = l
      · simp [hb, orNil]
      · simpa [hb] using ihc.1
    refine ⟨?_, fun _ => hP⟩
    rw [FindElementType.loop, hP, forest_mk, List.find?_append]
    cases hf : (Node.preorder (.mk t d a fc ns)).find? (Node.isElement l) with
    | none => simpa [orNil] using ihs.1
    | some x =>
      have := preorder_ne_nil _ x (List.mem_of_find?_eq_some hf)
      simp [orNil, this]

/-- Both the loop and the function of `ParseNodeAttr` apply the callback, in order, to
the matching nodes of the listing they walk. -/
theorem ParseNodeAttr_aux {σ : Type} (k v : String) (parse : Node → σ → σ) : ∀ (c : Node),
    (∀ s : σ, ParseNodeAttr.loop k v parse c s
      = .ok (((Node.forest c).filter (Node.hasAttr k v)).foldl (fun acc m => parse m acc) s)) ∧
    (c ≠ .nil → ∀ s : σ, ParseNodeAttr k v parse c s
      = .ok (((Node.preorder c).filter (Node.hasAttr k v)).foldl
          (fun acc m => parse m acc) s)) := by
  intro c
  induction c with
  | nil =>
    constructor
    · intro s; simp [ParseNodeAttr.loop, Node.forest]
    · intro h; exact absurd rfl h
  | mk t d a fc ns ihc ihs =>
    have hP : ∀ s : σ, ParseNodeAttr k v parse (.mk t d a fc ns) s
        = .ok (((Node.preorder (.mk t d a fc ns)).filter (Node.hasAttr k v)).foldl
            (fun acc m => parse m acc) s) := by
      intro s
      rw [ParseNodeAttr, HasAttr_mk]
      simp only [Node.preorder, List.filter_cons, hasAttr_mk]
      cases hb : HasAttr.range k v (sliceElems a)
      · simpa using ihc.1 s
      · simpa using ihc.1 _
    refine ⟨fun s => ?_, fun _ => hP⟩
    rw [ParseNodeAttr.loop, hP, forest_mk, List.filter_append, List.foldl_append]
    simpa using ihs.1 _

theorem foldl_snoc_eq (l : List Node) : ∀ init : List Node,
    l.foldl (fun visited m => visited ++ [m]) init = init ++ l := by
  induction l with
  | nil => intro init; simp
  | cons x xs ih => intro init; simp [List.foldl_cons, ih]

theorem foldl_succ_eq (l : List Node) : ∀ init : Nat,
    l.foldl (fun count _ => count + 1) init = init + l.length := by
  induction l with
  | nil => intro init; simp
  | cons x xs ih => intro init; simp [List.foldl_cons, ih]; omega

/-- C2: on a present node `ParseNodeAttr` invokes the callback on exactly the nodes of the
pre-order listing of the subtree on which `HasAttr` is true, in that order: for every
callback the final state is the callback folded over the filtered listing, the recorded
sequence of visited nodes is the filtered listing, and the number of invocations is the
number of matching nodes. -/
theorem ParseNodeAttr_visits_matches_in_preorder (key value : String) (n : Node)
    (h : n ≠ .nil) :
    (∀ (σ : Type) (parse : Node → σ → σ) (s : σ),
        ParseNodeAttr key value parse n s
          = .ok (((Node.preorder n).filter
              (fun m => decide (HasAttr key value m = .ok true))).foldl
                (fun acc m => parse m acc) s)) ∧
      ParseNodeAttr key value (fun m visited => visited ++ [m]) n []
        = .ok ((Node.preorder n).filter (fun m => decide (HasAttr key value m = .ok true))) ∧
      ParseNodeAttr key value (fun _ count => count + 1) n 0
        = .ok ((Node.preorder n).countP
            (fun m => decide (HasAttr key value m = .ok true))) := by
  have hgen : ∀ (σ : Type) (parse : Node → σ → σ) (s : σ),
      ParseNodeAttr key value parse n s
        = .ok (((Node.preorder n).filter (Node.hasAttr key value)).foldl
            (fun acc m => parse m acc) s) :=
    fun σ parse s => (ParseNodeAttr_aux key value parse n).2 h s
  refine ⟨hgen, ?_, ?_⟩
  · rw [hgen, foldl_snoc_eq]; rfl
  · rw [hgen, foldl_succ_eq, List.countP_eq_length_filter]; simp; rfl

theorem ParseNodeAttr_visits_matches_in_preorder_witness :
    sampleDoc ≠ .nil ∧
      ParseNodeAttr "class" "b" (fun m visited => visited ++ [m]) sampleDoc []
        = .ok [spanS1, spanS2] ∧
      ParseNodeAttr "data-test" "t" (fun m visited => visited ++ [m]) sampleDoc []
        = .ok [divX, spanS1] ∧
      ParseNodeAttr "class" "b" (fun _ count => count + 1) sampleDoc 0 = .ok 2 :=
  ⟨by decide,
   (ParseNodeAttr_visits_matches_in_preorder "class" "b" sampleDoc (by decide)).2.1.trans
     (by decide),
   (ParseNodeAttr_visits_matches_in_preorder "data-test" "t" sampleDoc (by decide)).2.1.trans
     (by decide),
   (ParseNodeAttr_visits_matches_in_preorder "class" "b" sampleDoc (by decide)).2.2.trans
     (by decide)⟩

/-- C5: on a present node `FindElementType` returns the first node of the pre-order
listing of the subtree whose type is `ElementNode` and whose data equals the label, the
nil pointer standing for "no such node"; whatever it returns is nil or an element with
that label. -/
theorem FindElementType_first_in_preorder (label : String) (n : Node) (h : n ≠ .nil) :
    FindElementType label n
        = .ok (orNil ((Node.preorder n).find? (Node.isElement label))) ∧
      (∀ r, FindElementType label n = .ok r →
        r = .nil ∨ ∃ a fc ns, r = .mk NodeType.ElementNode label a fc ns) := by
  have h1 := (FindElementType_aux label n).2 h
  refine ⟨h1, fun r hr => ?_⟩
  rw [h1] at hr
  cases hf : (Node.preorder n).find? (Node.isElement label) with
  | none =>
    rw [hf] at hr
    left
    exact (Except.ok.inj hr).symm
  | some x =>
    rw [hf] at hr
    have hx : r = x := (Except.ok.inj hr).symm
    have hp := List.find?_some hf
    right
    subst hx
    cases r with
    | nil => simp [Node.isElement] at hp
    | mk t d a fc ns =>
      simp only [Node.isElement, decide_eq_true_eq] at hp
      exact ⟨a, fc, ns, by rw [hp.1, hp.2]⟩

theorem FindElementType_first_in_preorder_witness :
    sampleDoc ≠ .nil ∧ FindElementType "span" sampleDoc = .ok spanS1 ∧
      FindElementType "p" sampleDoc = .ok .nil :=
  ⟨by decide,
   (FindElementType_first_in_preorder "span" sampleDoc (by decide)).1.trans (by decide),
   (FindElementType_first_in_preorder "p" sampleDoc (by decide)).1.trans (by decide)⟩

/-! ## Attribute matching -/

theorem splitChars_ne_nil (sep : Char) (l : List Char) : splitChars sep l ≠ [] := by
  cases l with
  | nil => simp [splitChars]
  | cons c cs => by_cases h : c = sep <;> simp [splitChars, h]

theorem splitChars_cons_ne (sep c : Char) (cs : List Char) (h : c ≠ sep) :
    splitChars sep (c :: cs)
      = (c :: (splitChars sep cs).headD []) :: (splitChars sep cs).tail := by
  simp [splitChars, h]

theorem splitChars_append_sep (sep : Char) (r : List Char) : ∀ l : List Char, sep ∉ l →
    splitChars sep (l ++ sep :: r) = l :: splitChars sep r := by
  intro l
  induction l with
  | nil => intro _; simp [splitChars]
  | cons c cs ih =>
    intro h
    have hc : c ≠ sep := fun e => h (by simp [e])
    have hcs : sep ∉ cs := fun e => h (by simp [e])
    rw [List.cons_append, splitChars_cons_ne sep c _ hc, ih hcs]
    simp

theorem splitChars_no_sep (sep : Char) : ∀ l : List Char, sep ∉ l →
    splitChars sep l = [l] := by
  intro l
  induction l with
  | nil => intro _; simp [splitChars]
  | cons c cs ih =>
    intro h
    have hc : c ≠ sep := fun e => h (by simp [e])
    have hcs : sep ∉ cs := fun e => h (by simp [e])
    rw [splitChars_cons_ne sep c _ hc, ih hcs]
    simp

theorem splitChars_join (sep : Char) : ∀ (ls : List (List Char)) (l : List Char),
    sep ∉ l → (∀ x ∈ ls, sep ∉ x) →
    splitChars sep (l ++ ls.flatMap (fun x => sep :: x)) = l :: ls := by
  intro ls
  induction ls with
  | nil => intro l hl _; simpa using splitChars_no_sep sep l hl
  | cons y ys ih =>
    intro l hl h
    rw [List.flatMap_cons, List.cons_append, splitChars_append_sep sep _ l hl,
      ih y (h y (by simp)) (fun x hx => h x (by simp [hx]))]

theorem intercalate_go_data (sep : String) : ∀ (ts : List String) (acc : String),
    (String.intercalate.go acc sep ts).data
      = acc.data ++ ts.flatMap (fun x => sep.data ++ x.data) := by
  intro ts
  induction ts with
  | nil => intro acc; simp [String.intercalate.go]
  | cons y ys ih => intro acc; simp [String.intercalate.go, ih, String.data_append]

theorem Split_intercalate (sep : Char) (ts : List String) (hts : ts ≠ [])
    (h : ∀ s ∈ ts, sep ∉ s.data) :
    Split (String.intercalate (String.singleton sep) ts) sep = ts := by
  cases ts with
  | nil => exact absurd rfl hts
  | cons t rest =>
    have hd : (String.singleton sep).data = [sep] := rfl
    rw [Split, String.intercalate, intercalate_go_data, hd]
    have : rest.flatMap (fun x => [sep] ++ x.data)
        = (rest.map String.data).flatMap (fun x => sep :: x) := by
      simp [List.flatMap_map]
    rw [this, splitChars_join sep _ _ (h t (by simp))]
    · have hid : (String.mk ∘ String.data) = id := funext fun x => rfl
      simp [hid]
    · intro x hx
      obtain ⟨s, hs, rfl⟩ := List.mem_map.1 hx
      exact h s (by simp [hs])

theorem vals_eq_true_iff (value : String) (l : List String) :
    HasAttr.vals value l = true ↔ value ∈ l := by
  induction l with
  | nil => simp [HasAttr.vals]
  | cons x xs ih =>
    by_cases hx : x = value
    · simp [HasAttr.vals, hx]
    · have hx2 : ¬ value = x := fun e => hx e.symm
      simp [HasAttr.vals, hx, hx2, ih]

theorem range_eq_true_iff (k v : String) (l : List Attribute) :
    HasAttr.range k v l = true ↔ ∃ p ∈ l, p.Key = k ∧ v ∈ Split p.Val (delim k) := by
  have hd : ∀ a : Attribute,
      (if k = "style" then Split a.Val ';' else Split a.Val ' ') = Split a.Val (delim k) := by
    intro a
    by_cases hs : k = "style" <;> simp [delim, hs]
  induction l with
  | nil => simp [HasAttr.range]
  | cons a rest ih =>
    have step : HasAttr.range k v (a :: rest) = true ↔
        (a.Key = k ∧ v ∈ Split a.Val (delim k)) ∨ HasAttr.range k v rest = true := by
      rw [HasAttr.range, hd, ← vals_eq_true_iff]
      split_ifs <;> simp [*]
    refine step.trans ⟨?_, ?_⟩
    · rintro (⟨h1, h2⟩ | h)
      · exact ⟨a, by simp, h1, h2⟩
      · obtain ⟨p, hp, h1, h2⟩ := ih.1 h
        exact ⟨p, by simp [hp], h1, h2⟩
    · rintro ⟨p, hp, h1, h2⟩
      rcases List.mem_cons.1 hp with e | e
      · subst e; exact Or.inl ⟨h1, h2⟩
      · exact Or.inr (ih.2 ⟨p, e, h1, h2⟩)

theorem HasAttr_present (k v : String) (n : Node) (h : n ≠ .nil) :
    HasAttr k v n = .ok (HasAttr.range k v n.attrs) := by
  cases n with
  | nil => exact absurd rfl h
  | mk t d a fc ns => exact HasAttr_mk k v t d a fc ns

theorem Attr_range_eq (k : String) (l : List Attribute) :
    Attr.range k l
      = match l.find? (fun p => decide (p.Key = k)) with
        | some p => p.Val
        | none => "" := by
  induction l with
  | nil => simp [Attr.range]
  | cons a rest ih =>
    by_cases hk : a.Key = k
    · simp [Attr.range, List.find?_cons, hk]
    · simp [Attr.range, List.find?_cons, hk, ih]

theorem find_eq_of_filter_le_one (q : Attribute → Bool) (l : List Attribute)
    (h : (l.filter q).length ≤ 1) (p : Attribute) (hp : p ∈ l) (hq : q p = true) :
    l.find? q = some p := by
  induction l with
  | nil => simp at hp
  | cons a rest ih =>
    by_cases ha : q a = true
    · rw [List.filter_cons_of_pos ha] at h
      have hnil : rest.filter q = [] := by
        cases hr : rest.filter q with
        | nil => rfl
        | cons x xs => rw [hr] at h; simp at h
      rcases List.mem_cons.1 hp with e | e
      · subst e; simp [List.find?_cons, ha]
      · have : p ∈ rest.filter q := List.mem_filter.2 ⟨e, hq⟩
        rw [hnil] at this
        simp at this
    · have ha2 : q a = false := by simpa using ha
      rw [List.filter_cons_of_neg ha] at h
      rcases List.mem_cons.1 hp with e | e
      · subst e; exact absurd hq ha
      · simp [List.find?_cons, ha2, ih h e]

/-- C3 as stated fails: on a node carrying `class` twice, `HasAttr` is true for a token
of the second pair although the first pair, whose value `Attr` returns, does not have
it. -/
theorem HasAttr_first_pair_counterexample :
    dupClass ≠ .nil ∧ Attr "class" dupClass = .ok "a" ∧
      firstPairTokens "class" dupClass = some ["a"] ∧
      ¬ (HasAttr "class" "b" dupClass = .ok true ↔
          ∃ toks, firstPairTokens "class" dupClass = some toks ∧ "b" ∈ toks) := by
  refine ⟨by decide, by decide, by decide, fun h => ?_⟩
  obtain ⟨toks, h1, h2⟩ := h.1 (by decide)
  have h3 : firstPairTokens "class" dupClass = some ["a"] := by decide
  rw [h3] at h1
  have h4 : toks = ["a"] := (Option.some.inj h1).symm
  subst h4
  revert h2
  decide

/-- C3 (amended): on a present node `HasAttr` never fails and is true exactly when SOME
pair with that key has the target among the tokens of its value, split on ";" for
"style" and on a single space otherwise; so it is true whenever the target is a token of
the first such pair, and when at most one pair carries the key it is true exactly when the
target is a token of that first pair. -/
theorem HasAttr_iff_some_pair (key target : String) (node : Node) (h : node ≠ .nil) :
    HasAttr key target node
        = .ok (decide (∃ p ∈ node.attrs, p.Key = key ∧ target ∈ Split p.Val (delim key))) ∧
      ((∃ toks, firstPairTokens key node = some toks ∧ target ∈ toks) →
        HasAttr key target node = .ok true) ∧
      ((node.attrs.filter (fun p => decide (p.Key = key))).length ≤ 1 →
        (HasAttr key target node = .ok true ↔
          ∃ toks, firstPairTokens key node = some toks ∧ target ∈ toks)) := by
  have hval := HasAttr_present key target node h
  have hiff := range_eq_true_iff key target node.attrs
  have hfirst : (∃ toks, firstPairTokens key node = some toks ∧ target ∈ toks) →
      HasAttr.range key target node.attrs = true := by
    rintro ⟨toks, h1, h2⟩
    simp only [firstPairTokens, Option.map_eq_some'] at h1
    obtain ⟨p, hp, rfl⟩ := h1
    have hk := List.find?_some hp
    exact hiff.2 ⟨p, List.mem_of_find?_eq_some hp, by simpa using hk, h2⟩
  refine ⟨?_, ?_, ?_⟩
  · rw [hval]
    congr 1
    by_cases hr : HasAttr.range key target node.attrs = true
    · rw [hr]; exact (decide_eq_true (hiff.1 hr)).symm
    · have hr2 : HasAttr.range key target node.attrs = false := by simpa using hr
      rw [hr2]
      exact (decide_eq_false (fun e => hr (hiff.2 e))).symm
  · intro hf
    rw [hval, hfirst hf]
  · intro hone
    constructor
    · intro ht
      rw [hval] at ht
      obtain ⟨p, hp, hk, hv⟩ := hiff.1 (Except.ok.inj ht)
      have hfind := find_eq_of_filter_le_one (fun p => decide (p.Key = key)) node.attrs hone
        p hp (by simpa using hk)
      exact ⟨Split p.Val (delim key), by simp [firstPairTokens, hfind], hv⟩
    · intro hf
      rw [hval, hfirst hf]

theorem HasAttr_iff_some_pair_witness :
    spanS1 ≠ .nil ∧
      (spanS1.attrs.filter (fun p => decide (p.Key = "class"))).length ≤ 1 ∧
      HasAttr "class" "b" spanS1 = .ok true ∧
      (HasAttr "class" "b" spanS1 = .ok true ↔
        ∃ toks, firstPairTokens "class" spanS1 = some toks ∧ "b" ∈ toks) :=
  ⟨by decide, by decide,
   (HasAttr_iff_some_pair "class" "b" spanS1 (by decide)).1.trans (by decide),
   (HasAttr_iff_some_pair "class" "b" spanS1 (by decide)).2.2 (by decide)⟩

/-- C4 (the code does not do this): with the nil pointer for the node `HasAttr` does not
return false: its guard reads `node.Attr` before testing `node == nil`, so the call ends
in a nil dereference. -/
theorem HasAttr_nil_panics (key target : String) :
    HasAttr key target .nil = .error .nilDereference ∧
      HasAttr key target .nil ≠ .ok false := by
  constructor
  · rfl
  · intro h
    cases h

/-- C6: on a present node `Attr` returns the value of the first pair, in attribute order,
whose key equals the key, and the empty string when there is none, in particular when
the node has no attributes. -/
theorem Attr_first_pair (key : String) (node : Node) (h : node ≠ .nil) :
    Attr key node
        = .ok (match node.attrs.find? (fun p => decide (p.Key = key)) with
               | some p => p.Val
               | none => "") ∧
      (∀ (pre post : List Attribute) (p : Attribute), node.attrs = pre ++ p :: post →
        p.Key = key → (∀ q ∈ pre, q.Key ≠ key) → Attr key node = .ok p.Val) ∧
      ((∀ p ∈ node.attrs, p.Key ≠ key) → Attr key node = .ok "") ∧
      (node.attrs = [] → Attr key node = .ok "") := by
  have hval : Attr key node = .ok (Attr.range key node.attrs) := by
    cases node with
    | nil => exact absurd rfl h
    | mk t d a fc ns => rfl
  have hnone : (∀ p ∈ node.attrs, p.Key ≠ key) → Attr key node = .ok "" := by
    intro hno
    rw [hval, Attr_range_eq]
    have : node.attrs.find? (fun p => decide (p.Key = key)) = none := by
      rw [List.find?_eq_none]
      intro p hp
      simpa using hno p hp
    rw [this]
  refine ⟨?_, ?_, hnone, ?_⟩
  · rw [hval, Attr_range_eq]
  · intro pre post p hsplit hk hpre
    rw [hval, Attr_range_eq, hsplit, List.find?_append]
    have h1 : pre.find? (fun p => decide (p.Key = key)) = none := by
      rw [List.find?_eq_none]
      intro q hq
      simpa using hpre q hq
    simp [h1, List.find?_cons, hk]
  · intro hnil
    apply hnone
    rw [hnil]
    intro p hp
    simp at hp

theorem Attr_first_pair_witness :
    dupClass ≠ .nil ∧ Attr "class" dupClass = .ok "a" ∧ Attr "id" dupClass = .ok "" :=
  ⟨by decide,
   (Attr_first_pair "class" dupClass (by decide)).1.trans (by decide),
   (Attr_first_pair "id" dupClass (by decide)).2.2.1 (by decide)⟩

/-- C9: on a present node without attributes, be the attribute slice nil or empty,
`HasAttr` is false for every key and target, the empty target included; more generally
it is false whenever no pair of the node has the key. -/
theorem HasAttr_false_of_no_pair (key target : String) (node : Node) (h : node ≠ .nil) :
    ((∀ p ∈ node.attrs, p.Key ≠ key) → HasAttr key target node = .ok false) ∧
      (node.attrs = [] → HasAttr key target node = .ok false ∧
        HasAttr key "" node = .ok false) ∧
      (∀ (t : NodeType) (d : String) (fc ns : Node),
        HasAttr key target (.mk t d none fc ns) = .ok false ∧
        HasAttr key target (.mk t d (some []) fc ns) = .ok false) := by
  have hgen : ∀ tgt : String, (∀ p ∈ node.attrs, p.Key ≠ key) →
      HasAttr key tgt node = .ok false := by
    intro tgt hno
    rw [HasAttr_present key tgt node h]
    congr 1
    by_contra hc
    have hc2 : HasAttr.range key tgt node.attrs = true := by simpa using hc
    obtain ⟨p, hp, hk, _⟩ := (range_eq_true_iff key tgt node.attrs).1 hc2
    exact hno p hp hk
  refine ⟨hgen target, ?_, ?_⟩
  · intro hnil
    have hno : ∀ p ∈ node.attrs, p.Key ≠ key := by
      rw [hnil]
      intro p hp
      simp at hp
    exact ⟨hgen target hno, hgen "" hno⟩
  · intro t d fc ns
    exact ⟨rfl, rfl⟩

theorem HasAttr_false_of_no_pair_witness :
    sampleDoc ≠ .nil ∧ sampleDoc.attrs = [] ∧ HasAttr "class" "" sampleDoc = .ok false ∧
      (∀ p ∈ spanS1.attrs, p.Key ≠ "style") ∧ HasAttr "style" "a" spanS1 = .ok false :=
  ⟨by decide, by decide,
   ((HasAttr_false_of_no_pair "class" "" sampleDoc (by decide)).2.1 (by decide)).1,
   by decide,
   (HasAttr_false_of_no_pair "style" "a" spanS1 (by decide)).1 (by decide)⟩

theorem HasAttr_only_pair (key t : String) (c : Char) (ts : List String) (node : Node)
    (p : Attribute) (hd : delim key = c) (hts : ts ≠ []) (hsep : ∀ s ∈ ts, c ∉ s.data)
    (hnode : node ≠ .nil) (hp : p ∈ node.attrs) (hk : p.Key = key)
    (hv : p.Val = String.intercalate (String.singleton c) ts)
    (honly : ∀ q ∈ node.attrs, q.Key = key → q = p) :
    HasAttr key t node = .ok (decide (t ∈ ts)) := by
  rw [HasAttr_present key t node hnode]
  congr 1
  have hsplit : Split p.Val (delim key) = ts := by
    rw [hv, hd]
    exact Split_intercalate c ts hts hsep
  have hiff := range_eq_true_iff key t node.attrs
  by_cases ht : t ∈ ts
  · rw [decide_eq_true ht]
    exact hiff.2 ⟨p, hp, hk, by rw [hsplit]; exact ht⟩
  · rw [decide_eq_false ht]
    by_contra hc
    have hc2 : HasAttr.range key t node.attrs = true := by simpa using hc
    obtain ⟨q, hq, hqk, hqv⟩ := hiff.1 hc2
    rw [honly q hq hqk, hsplit] at hqv
    exact ht hqv

theorem delim_of_ne_style (key : String) (h : key ≠ "style") : delim key = ' ' := by
  simp [delim, h]

/-- C7: for a key other than "style", a non-empty list `ts` of strings without a space,
and a present node whose only pair with that key has the elements of `ts` joined by
single spaces as its value, `HasAttr` is true exactly for the elements of `ts`. -/
theorem HasAttr_space_tokens (key : String) (ts : List String) (t : String) (node : Node)
    (p : Attribute) (hkey : key ≠ "style") (hts : ts ≠ [])
    (hsp : ∀ s ∈ ts, ' ' ∉ s.data) (hnode : node ≠ .nil)
    (hp : p ∈ node.attrs) (hk : p.Key = key) (hv : p.Val = " ".intercalate ts)
    (honly : ∀ q ∈ node.attrs, q.Key = key → q = p) :
    HasAttr key t node = .ok (decide (t ∈ ts)) :=
  HasAttr_only_pair key t ' ' ts node p (delim_of_ne_style key hkey) hts hsp hnode hp hk hv
    honly

theorem HasAttr_space_tokens_witness :
    ("class" ≠ "style" ∧ ["a", "b"] ≠ [] ∧ (∀ s ∈ ["a", "b"], ' ' ∉ s.data) ∧
        spanS1 ≠ .nil ∧ attr "class" "a b" ∈ spanS1.attrs ∧
        (attr "class" "a b").Val = " ".intercalate ["a", "b"] ∧
        (∀ q ∈ spanS1.attrs, q.Key = "class" → q = attr "class" "a b")) ∧
      HasAttr "class" "a" spanS1 = .ok true ∧
      HasAttr "class" "b" spanS1 = .ok true ∧
      HasAttr "class" "a b" spanS1 = .ok false ∧
      HasAttr "id" "y" multiId = .ok true ∧
      HasAttr "id" "x y" multiId = .ok false :=
  ⟨⟨by decide, by decide, by decide, by decide, by decide, by decide, by decide⟩,
   HasAttr_space_tokens "class" ["a", "b"] "a" spanS1 (attr "class" "a b") (by decide)
     (by decide) (by decide) (by decide) (by decide) rfl (by decide) (by decide),
   HasAttr_space_tokens "class" ["a", "b"] "b" spanS1 (attr "class" "a b") (by decide)
     (by decide) (by decide) (by decide) (by decide) rfl (by decide) (by decide),
   HasAttr_space_tokens "class" ["a", "b"] "a b" spanS1 (attr "class" "a b") (by decide)
     (by decide) (by decide) (by decide) (by decide) rfl (by decide) (by decide),
   HasAttr_space_tokens "id" ["x", "y"] "y" multiId (attr "id" "x y") (by decide)
     (by decide) (by decide) (by decide) (by decide) rfl (by decide) (by decide),
   HasAttr_space_tokens "id" ["x", "y"] "x y" multiId (attr "id" "x y") (by decide)
     (by decide) (by decide) (by decide) (by decide) rfl (by decide) (by decide)⟩

/-- C8: for the key "style" the value is split on ";" and not on a space: for a non-empty
list `ts` of strings without ";" (spaces allowed) and a present node whose only "style"
pair has the elements of `ts` joined by ";" as its value, `HasAttr` is true exactly for
the elements of `ts`; and for such an element `FindNodeAttr`, run on any tree holding the
node, returns a node on which `HasAttr` is true. -/
theorem HasAttr_style_tokens (ts : List String) (t : String) (node : Node) (p : Attribute)
    (hts : ts ≠ []) (hsc : ∀ s ∈ ts, ';' ∉ s.data) (hnode : node ≠ .nil)
    (hp : p ∈ node.attrs) (hk : p.Key = "style") (hv : p.Val = ";".intercalate ts)
    (honly : ∀ q ∈ node.attrs, q.Key = "style" → q = p) :
    HasAttr "style" t node = .ok (decide (t ∈ ts)) ∧
      (t ∈ ts → ∀ root : Node, node ∈ Node.preorder root →
        ∃ r, FindNodeAttr "style" t root = .ok r ∧ r ≠ .nil ∧
          HasAttr "style" t r = .ok true) := by
  have h1 : HasAttr "style" t node = .ok (decide (t ∈ ts)) :=
    HasAttr_only_pair "style" t ';' ts node p (by decide) hts hsc hnode hp hk hv honly
  refine ⟨h1, fun ht root hmem => ?_⟩
  have hroot : root ≠ .nil := by
    intro e
    rw [e] at hmem
    simp [Node.preorder] at hmem
  have hmatch : Node.hasAttr "style" t node = true := by
    simp [Node.hasAttr, h1, ht]
  rw [(FindNodeAttr_aux "style" t root).2 hroot]
  cases hf : (Node.preorder root).find? (Node.hasAttr "style" t) with
  | none =>
    have := List.find?_eq_none.1 hf node hmem
    exact absurd hmatch this
  | some x =>
    refine ⟨x, rfl, preorder_ne_nil root x (List.mem_of_find?_eq_some hf), ?_⟩
    have := List.find?_some hf
    simpa [Node.hasAttr] using this

theorem HasAttr_style_tokens_witness :
    (["display:none", "color:red"] ≠ [] ∧
        (∀ s ∈ ["display:none", "color:red"], ';' ∉ s.data) ∧ spanS2 ≠ .nil ∧
        attr "style" "display:none;color:red" ∈ spanS2.attrs ∧
        (attr "style" "display:none;color:red").Val
          = ";".intercalate ["display:none", "color:red"] ∧
        (∀ q ∈ spanS2.attrs, q.Key = "style" → q = attr "style" "display:none;color:red") ∧
        spanS2 ∈ Node.preorder sampleDoc) ∧
      HasAttr "style" "display:none" spanS2 = .ok true ∧
      (∃ r, FindNodeAttr "style" "display:none" sampleDoc = .ok r ∧ r ≠ .nil ∧
        HasAttr "style" "display:none" r = .ok true) ∧
      HasAttr "style" "margin: 0 auto" styleSpaced = .ok true ∧
      HasAttr "style" "auto" styleSpaced = .ok false :=
  ⟨⟨by decide, by decide, by decide, by decide, by decide, by decide, by decide⟩,
   (HasAttr_style_tokens ["display:none", "color:red"] "display:none" spanS2
     (attr "style" "display:none;color:red") (by decide) (by decide) (by decide) (by decide)
     rfl (by decide) (by decide)).1,
   (HasAttr_style_tokens ["display:none", "color:red"] "display:none" spanS2
     (attr "style" "display:none;color:red") (by decide) (by decide) (by decide) (by decide)
     rfl (by decide) (by decide)).2 (by decide) sampleDoc (by decide),
   (HasAttr_style_tokens ["color: red", "margin: 0 auto"] "margin: 0 auto" styleSpaced
     (attr "style" "color: red;margin: 0 auto") (by decide) (by decide) (by decide)
     (by decide) rfl (by decide) (by decide)).1,
   (HasAttr_style_tokens ["color: red", "margin: 0 auto"] "auto" styleSpaced
     (attr "style" "color: red;margin: 0 auto") (by decide) (by decide) (by decide)
     (by decide) rfl (by decide) (by decide)).1⟩

/-- C10: on a present node neither search fails; `FindNodeAttr` returns the nil pointer
exactly when no node of the subtree, the root included, satisfies `HasAttr`, and
`FindElementType` returns the nil pointer exactly when no node of the subtree is an
element with the label. -/
theorem find_nil_iff_no_match (key value label : String) (n : Node) (h : n ≠ .nil) :
    (∃ r, FindNodeAttr key value n = .ok r ∧
        (r = .nil ↔ ∀ m ∈ Node.preorder n, HasAttr key value m ≠ .ok true)) ∧
      (∃ r, FindElementType label n = .ok r ∧
        (r = .nil ↔ ∀ m ∈ Node.preorder n, ∀ (a : Option (List Attribute)) (fc ns : Node),
          m ≠ .mk NodeType.ElementNode label a fc ns)) := by
  constructor
  · refine ⟨_, (FindNodeAttr_aux key value n).2 h, ?_⟩
    cases hf : (Node.preorder n).find? (Node.hasAttr key value) with
    | none =>
      simp only [orNil, true_iff]
      intro m hm
      have := List.find?_eq_none.1 hf m hm
      simpa [Node.hasAttr] using this
    | some x =>
      have hx := preorder_ne_nil n x (List.mem_of_find?_eq_some hf)
      have hpx := List.find?_some hf
      simp only [orNil, hx, false_iff]
      intro hall
      exact hall x (List.mem_of_find?_eq_some hf) (by simpa [Node.hasAttr] using hpx)
  · refine ⟨_, (FindElementType_aux label n).2 h, ?_⟩
    cases hf : (Node.preorder n).find? (Node.isElement label) with
    | none =>
      simp only [orNil, true_iff]
      intro m hm a fc ns e
      have := List.find?_eq_none.1 hf m hm
      rw [e] at this
      simp [Node.isElement] at this
    | some x =>
      have hx := preorder_ne_nil n x (List.mem_of_find?_eq_some hf)
      have hpx := List.find?_some hf
      simp only [orNil, hx, false_iff]
      intro hall
      cases x with
      | nil => exact hx rfl
      | mk t d a fc ns =>
        simp only [Node.isElement, decide_eq_true_eq] at hpx
        exact hall _ (List.mem_of_find?_eq_some hf) a fc ns (by rw [hpx.1, hpx.2])

theorem find_nil_iff_no_match_witness :
    sampleDoc ≠ .nil ∧
      (∃ r, FindNodeAttr "class" "none" sampleDoc = .ok r ∧
        (r = .nil ↔ ∀ m ∈ Node.preorder sampleDoc, HasAttr "class" "none" m ≠ .ok true)) ∧
      (∃ r, FindElementType "p" sampleDoc = .ok r ∧
        (r = .nil ↔ ∀ m ∈ Node.preorder sampleDoc,
          ∀ (a : Option (List Attribute)) (fc ns : Node),
            m ≠ .mk NodeType.ElementNode "p" a fc ns)) ∧
      (∀ m ∈ Node.preorder sampleDoc, HasAttr "class" "none" m ≠ .ok true) ∧
      FindNodeAttr "class" "none" sampleDoc = .ok .nil :=
  ⟨by decide,
   (find_nil_iff_no_match "class" "none" "p" sampleDoc (by decide)).1,
   (find_nil_iff_no_match "class" "none" "p" sampleDoc (by decide)).2,
   by decide,
   by
    obtain ⟨r, hr, hiff⟩ := (find_nil_iff_no_match "class" "none" "p" sampleDoc (by decide)).1
    rw [hr, hiff.2 (by decide)]⟩

/-! ## Results of a search -/

theorem FindNodeAttr_found (k v : String) (n r : Node) (h : n ≠ .nil)
    (hr : FindNodeAttr k v n = .ok r) (hne : r ≠ .nil) :
    r ∈ Node.preorder n ∧ HasAttr k v r = .ok true := by
  rw [(FindNodeAttr_aux k v n).2 h] at hr
  cases hf : (Node.preorder n).find? (Node.hasAttr k v) with
  | none =>
    rw [hf] at hr
    exact absurd (Except.ok.inj hr).symm hne
  | some x =>
    rw [hf] at hr
    have hx : x = r := Except.ok.inj hr
    subst hx
    refine ⟨List.mem_of_find?_eq_some hf, ?_⟩
    have := List.find?_some hf
    simpa [Node.hasAttr] using this

theorem FindElementType_found (l : String) (n r : Node) (h : n ≠ .nil)
    (hr : FindElementType l n = .ok r) (hne : r ≠ .nil) :
    r ∈ Node.preorder n ∧ Node.isElement l r = true := by
  rw [(FindElementType_aux l n).2 h] at hr
  cases hf : (Node.preorder n).find? (Node.isElement l) with
  | none =>
    rw [hf] at hr
    exact absurd (Except.ok.inj hr).symm hne
  | some x =>
    rw [hf] at hr
    have hx : x = r := Except.ok.inj hr
    subst hx
    exact ⟨List.mem_of_find?_eq_some hf, List.find?_some hf⟩

theorem FindNodeAttr_self (k v : String) (n : Node) (h : HasAttr k v n = .ok true) :
    FindNodeAttr k v n = .ok n := by
  cases n with
  | nil => simp [HasAttr] at h
  | mk t d a fc ns => rw [FindNodeAttr, h]

theorem FindElementType_self (l : String) (n : Node) (h : Node.isElement l n = true) :
    FindElementType l n = .ok n := by
  cases n with
  | nil => simp [Node.isElement] at h
  | mk t d a fc ns =>
    simp only [Node.isElement, decide_eq_true_eq] at h
    rw [FindElementType]
    simp [h]

theorem find_eq_head_filter (q : Node → Bool) (l : List Node) :
    l.find? q = (l.filter q).head? := by
  induction l with
  | nil => rfl
  | cons x xs ih =>
    cases hq : q x
    · have hn : ¬ q x = true := by simp [hq]
      rw [List.find?_cons_of_neg _ hn, List.filter_cons_of_neg hn]
      exact ih
    · rw [List.find?_cons_of_pos _ hq, List.filter_cons_of_pos hq]
      rfl

/-- C11: on a present root both finders return, and a node returned by `FindNodeClass`
is the root or one of its descendants and has the class according to `HasClass`; a node
returned by `FindNodeId` is in the subtree too and has the id according to `HasId`. -/
theorem FindNodeClass_result_has_class (c id : String) (root : Node) (h : root ≠ .nil) :
    (∃ n, FindNodeClass c root = .ok n ∧
        (n ≠ .nil → n ∈ Node.preorder root ∧ HasClass c n = .ok true)) ∧
      (∃ n, FindNodeId id root = .ok n ∧
        (n ≠ .nil → n ∈ Node.preorder root ∧ HasId id n = .ok true)) := by
  constructor
  · exact ⟨_, (FindNodeAttr_aux "class" c root).2 h,
      fun hne => FindNodeAttr_found "class" c root _ h ((FindNodeAttr_aux "class" c root).2 h) hne⟩
  · exact ⟨_, (FindNodeAttr_aux "id" id root).2 h,
      fun hne => FindNodeAttr_found "id" id root _ h ((FindNodeAttr_aux "id" id root).2 h) hne⟩

theorem FindNodeClass_result_has_class_witness :
    sampleDoc ≠ .nil ∧
      (∃ n, FindNodeClass "b" sampleDoc = .ok n ∧
        (n ≠ .nil → n ∈ Node.preorder sampleDoc ∧ HasClass "b" n = .ok true)) ∧
      (∃ n, FindNodeId "s2" sampleDoc = .ok n ∧
        (n ≠ .nil → n ∈ Node.preorder sampleDoc ∧ HasId "s2" n = .ok true)) ∧
      spanS1 ∈ Node.preorder sampleDoc ∧ HasClass "b" spanS1 = .ok true ∧
      spanS2 ∈ Node.preorder sampleDoc ∧ HasId "s2" spanS2 = .ok true :=
  ⟨by decide,
   (FindNodeClass_result_has_class "b" "s2" sampleDoc (by decide)).1,
   (FindNodeClass_result_has_class "b" "s2" sampleDoc (by decide)).2,
   by decide, by decide, by decide, by decide⟩

/-- C12: the helpers for class and id are the generic operations at the keys "class" and
"id": `HasClass` is `HasAttr "class"`, `FindNodeClass` is `FindNodeAttr "class"`, `HasId`
is `HasAttr "id"` and `FindNodeId` is `FindNodeAttr "id"`, on every node, nil included. -/
theorem helpers_are_specialisations (s : String) (node : Node) :
    HasClass s node = HasAttr "class" s node ∧
      FindNodeClass s node = FindNodeAttr "class" s node ∧
      HasId s node = HasAttr "id" s node ∧
      FindNodeId s node = FindNodeAttr "id" s node :=
  ⟨rfl, rfl, rfl, rfl⟩

theorem FindNodeAttr_total (k v : String) (n : Node) (h : n ≠ .nil) :
    ∃ r, FindNodeAttr k v n = .ok r :=
  ⟨_, (FindNodeAttr_aux k v n).2 h⟩

theorem FindElementType_total (l : String) (n : Node) (h : n ≠ .nil) :
    ∃ r, FindElementType l n = .ok r :=
  ⟨_, (FindElementType_aux l n).2 h⟩

theorem Attr_present (k : String) (n : Node) (h : n ≠ .nil) :
    Attr k n = .ok (Attr.range k n.attrs) := by
  cases n with
  | nil => exact absurd rfl h
  | mk t d a fc ns => rfl

theorem Attr_range_absent (k : String) (l : List Attribute) (h : ∀ p ∈ l, p.Key ≠ k) :
    Attr.range k l = "" := by
  induction l with
  | nil => rfl
  | cons a rest ih =>
    have ha : a.Key ≠ k := h a (by simp)
    rw [Attr.range, if_neg ha]
    exact ih (fun p hp => h p (by simp [hp]))

/-- C13 as stated fails: with the nil pointer for the node none of `FindNodeAttr`,
`FindElementType` and `Attr` returns a result; each call ends in a nil dereference. -/
theorem nil_node_counterexample :
    ¬ (∃ r, FindNodeAttr "data-test" "test" .nil = .ok r) ∧
      ¬ (∃ r, FindElementType "div" .nil = .ok r) ∧
      ¬ (∃ v, Attr "id" .nil = .ok v) ∧
      FindNodeAttr "data-test" "test" .nil = .error .nilDereference ∧
      FindElementType "div" .nil = .error .nilDereference ∧
      Attr "id" .nil = .error .nilDereference := by
  have h1 : FindNodeAttr "data-test" "test" .nil = .error .nilDereference := by
    rw [FindNodeAttr]
  have h2 : FindElementType "div" .nil = .error .nilDereference := by
    rw [FindElementType]
  have h3 : Attr "id" .nil = .error .nilDereference := rfl
  refine ⟨?_, ?_, ?_, h1, h2, h3⟩
  · rintro ⟨r, hr⟩
    rw [h1] at hr
    cases hr
  · rintro ⟨r, hr⟩
    rw [h2] at hr
    cases hr
  · rintro ⟨v, hv⟩
    rw [h3] at hv
    cases hv

/-- C13 (amended): on a present node absence is an empty or nil result and never a
failure: `FindNodeAttr`, `FindElementType` and `Attr` all return, `Attr` returns the empty
string when no pair has the key, and the two searches return the nil pointer when no node
of the subtree matches.  With the nil pointer for the node, `FindElementType` and `Attr`
do not return: they read `in.Type` and `node.Attr` and end in a nil dereference. -/
theorem absence_is_empty_on_present_node (key value label : String) (n : Node)
    (h : n ≠ .nil) :
    (∃ r, FindNodeAttr key value n = .ok r) ∧
      (∃ r, FindElementType label n = .ok r) ∧
      (∃ v, Attr key n = .ok v) ∧
      ((∀ p ∈ n.attrs, p.Key ≠ key) → Attr key n = .ok "") ∧
      ((∀ m ∈ Node.preorder n, HasAttr key value m ≠ .ok true) →
        FindNodeAttr key value n = .ok .nil) ∧
      ((∀ m ∈ Node.preorder n, Node.isElement label m = false) →
        FindElementType label n = .ok .nil) ∧
      FindElementType label .nil = .error .nilDereference ∧
      Attr key .nil = .error .nilDereference := by
  refine ⟨FindNodeAttr_total key value n h, FindElementType_total label n h,
    ⟨_, Attr_present key n h⟩, ?_, ?_, ?_, ?_, rfl⟩
  · intro hno
    rw [Attr_present key n h, Attr_range_absent key n.attrs hno]
  · intro hno
    rw [(FindNodeAttr_aux key value n).2 h]
    have : (Node.preorder n).find? (Node.hasAttr key value) = none := by
      rw [List.find?_eq_none]
      intro m hm
      simpa [Node.hasAttr] using hno m hm
    rw [this]
    rfl
  · intro hno
    rw [(FindElementType_aux label n).2 h]
    have : (Node.preorder n).find? (Node.isElement label) = none := by
      rw [List.find?_eq_none]
      intro m hm
      simp [hno m hm]
    rw [this]
    rfl
  · rw [FindElementType]

theorem absence_is_empty_on_present_node_witness :
    sampleDoc ≠ .nil ∧
      (∀ p ∈ sampleDoc.attrs, p.Key ≠ "id") ∧ Attr "id" sampleDoc = .ok "" ∧
      (∀ m ∈ Node.preorder sampleDoc, HasAttr "class" "none" m ≠ .ok true) ∧
      FindNodeAttr "class" "none" sampleDoc = .ok .nil ∧
      (∀ m ∈ Node.preorder sampleDoc, Node.isElement "table" m = false) ∧
      FindElementType "table" sampleDoc = .ok .nil :=
  ⟨by decide, by decide,
   (absence_is_empty_on_present_node "id" "none" "table" sampleDoc (by decide)).2.2.2.1
     (by decide),
   by decide,
   (absence_is_empty_on_present_node "class" "none" "table" sampleDoc (by decide)).2.2.2.2.1
     (by decide),
   by decide,
   (absence_is_empty_on_present_node "class" "none" "table" sampleDoc
     (by decide)).2.2.2.2.2.1 (by decide)⟩

/-- C14: on a present node the search and the visitor walk the same order: the node
`FindNodeAttr` returns is the first node on which `ParseNodeAttr` invokes its callback,
and `FindNodeAttr` returns the nil pointer exactly when the callback is invoked on no
node, that is zero times. -/
theorem FindNodeAttr_is_first_visit (key value : String) (n : Node) (h : n ≠ .nil) :
    ∃ visited : List Node,
      ParseNodeAttr key value (fun m acc => acc ++ [m]) n [] = .ok visited ∧
      FindNodeAttr key value n = .ok (orNil visited.head?) ∧
      (FindNodeAttr key value n = .ok .nil ↔ visited = []) ∧
      (FindNodeAttr key value n = .ok .nil ↔
        ParseNodeAttr key value (fun _ count => count + 1) n 0 = .ok 0) := by
  have hparse := (ParseNodeAttr_aux key value (fun m (acc : List Node) => acc ++ [m]) n).2 h []
  have hcount := (ParseNodeAttr_aux key value (fun _ (count : Nat) => count + 1) n).2 h 0
  have hfind := (FindNodeAttr_aux key value n).2 h
  rw [foldl_snoc_eq] at hparse
  rw [foldl_succ_eq] at hcount
  rw [find_eq_head_filter] at hfind
  have hnil : FindNodeAttr key value n = .ok .nil ↔
      (Node.preorder n).filter (Node.hasAttr key value) = [] := by
    rw [hfind]
    cases hl : (Node.preorder n).filter (Node.hasAttr key value) with
    | nil => simp [orNil]
    | cons x xs =>
      have hx : x ∈ (Node.preorder n).filter (Node.hasAttr key value) := by simp [hl]
      have hx2 : x ≠ .nil := preorder_ne_nil n x (List.mem_filter.1 hx).1
      simp [orNil, hx2]
  refine ⟨(Node.preorder n).filter (Node.hasAttr key value), by simpa using hparse, hfind,
    hnil, ?_⟩
  rw [hnil, hcount]
  constructor
  · intro e
    rw [e]
    rfl
  · intro e
    have : ((Node.preorder n).filter (Node.hasAttr key value)).length = 0 := by
      have := Except.ok.inj e
      omega
    exact List.length_eq_zero.1 this

theorem FindNodeAttr_is_first_visit_witness :
    sampleDoc ≠ .nil ∧
      ∃ visited : List Node,
        ParseNodeAttr "class" "b" (fun m acc => acc ++ [m]) sampleDoc [] = .ok visited ∧
        FindNodeAttr "class" "b" sampleDoc = .ok (orNil visited.head?) ∧
        (FindNodeAttr "class" "b" sampleDoc = .ok .nil ↔ visited = []) ∧
        (FindNodeAttr "class" "b" sampleDoc = .ok .nil ↔
          ParseNodeAttr "class" "b" (fun _ count => count + 1) sampleDoc 0 = .ok 0) ∧
        visited = [spanS1, spanS2] := by
  refine ⟨by decide, ?_⟩
  obtain ⟨visited, h1, h2, h3, h4⟩ :=
    FindNodeAttr_is_first_visit "class" "b" sampleDoc (by decide)
  refine ⟨visited, h1, h2, h3, h4, ?_⟩
  have h5 := (ParseNodeAttr_aux "class" "b" (fun m (acc : List Node) => acc ++ [m])
    sampleDoc).2 (by decide) []
  rw [foldl_snoc_eq] at h5
  exact (Except.ok.inj (h1.symm.trans h5)).trans (by decide)

/-- C19: searching is idempotent on its own result: on a present node both searches
return, and a node returned by `FindNodeAttr` is returned again when the search is run on
it, and likewise for `FindElementType`. -/
theorem search_idempotent (key value label : String) (n : Node) (h : n ≠ .nil) :
    (∃ r, FindNodeAttr key value n = .ok r ∧
        (r ≠ .nil → FindNodeAttr key value r = .ok r)) ∧
      (∃ m, FindElementType label n = .ok m ∧
        (m ≠ .nil → FindElementType label m = .ok m)) := by
  constructor
  · obtain ⟨r, hr⟩ := FindNodeAttr_total key value n h
    exact ⟨r, hr, fun hne =>
      FindNodeAttr_self key value r (FindNodeAttr_found key value n r h hr hne).2⟩
  · obtain ⟨m, hm⟩ := FindElementType_total label n h
    exact ⟨m, hm, fun hne =>
      FindElementType_self label m (FindElementType_found label n m h hm hne).2⟩

theorem search_idempotent_witness :
    sampleDoc ≠ .nil ∧
      (∃ r, FindNodeAttr "class" "b" sampleDoc = .ok r ∧
        (r ≠ .nil → FindNodeAttr "class" "b" r = .ok r)) ∧
      (∃ m, FindElementType "span" sampleDoc = .ok m ∧
        (m ≠ .nil → FindElementType "span" m = .ok m)) ∧
      spanS1 ≠ .nil ∧ FindNodeAttr "class" "b" spanS1 = .ok spanS1 := by
  refine ⟨by decide,
    (search_idempotent "class" "b" "span" sampleDoc (by decide)).1,
    (search_idempotent "class" "b" "span" sampleDoc (by decide)).2,
    by decide, ?_⟩
  obtain ⟨r, hr, hid⟩ := (search_idempotent "class" "b" "span" sampleDoc (by decide)).1
  have hr2 : FindNodeAttr "class" "b" sampleDoc = .ok spanS1 :=
    ((FindNodeAttr_aux "class" "b" sampleDoc).2 (by decide)).trans (by decide)
  have e : r = spanS1 := Except.ok.inj (hr.symm.trans hr2)
  rw [e] at hid
  exact hid (by decide)

/-! ## Tokens and separators -/

theorem splitChars_piece_no_sep (sep : Char) : ∀ (l piece : List Char),
    piece ∈ splitChars sep l → sep ∉ piece := by
  intro l
  induction l with
  | nil =>
    intro piece hp
    simp only [splitChars, List.mem_singleton] at hp
    rw [hp]
    simp
  | cons c cs ih =>
    intro piece hp
    by_cases hc : c = sep
    · simp only [splitChars, hc, if_true, List.mem_cons] at hp
      rcases hp with e | e
      · rw [e]; simp
      · exact ih piece e
    · rw [splitChars_cons_ne sep c cs hc] at hp
      cases hs : splitChars sep cs with
      | nil => exact absurd hs (splitChars_ne_nil sep cs)
      | cons x xs =>
        rw [hs] at hp ih
        simp only [List.headD_cons, List.tail_cons, List.mem_cons] at hp
        rcases hp with e | e
        · rw [e]
          have hx : sep ∉ x := ih x (by simp)
          intro hmem
          rcases List.mem_cons.1 hmem with e2 | e2
          · exact hc e2.symm
          · exact hx e2
        · exact ih piece (by simp [e])

theorem splitChars_append (sep : Char) (b : List Char) : ∀ a : List Char,
    splitChars sep (a ++ sep :: b) = splitChars sep a ++ splitChars sep b := by
  intro a
  induction a with
  | nil => simp [splitChars]
  | cons c cs ih =>
    by_cases hc : c = sep
    · simp [splitChars, hc, ih]
    · rw [List.cons_append, splitChars_cons_ne sep c _ hc, splitChars_cons_ne sep c _ hc, ih]
      cases hs : splitChars sep cs with
      | nil => exact absurd hs (splitChars_ne_nil sep cs)
      | cons x xs => simp

theorem nil_mem_splitChars (sep : Char) (l : List Char)
    (h : l = [] ∨ [sep] <+: l ∨ [sep] <:+ l ∨ [sep, sep] <:+: l) :
    [] ∈ splitChars sep l := by
  rcases h with h | ⟨t, h⟩ | ⟨t, h⟩ | ⟨a, b, h⟩
  · rw [h]; simp [splitChars]
  · rw [← h]; simp [splitChars]
  · rw [← h, splitChars_append]
    simp [splitChars]
  · have e : l = a ++ sep :: (sep :: b) := by rw [← h]; simp
    rw [e, splitChars_append]
    simp [splitChars]

theorem empty_mem_Split (sep : Char) (v : String)
    (h : v = "" ∨ [sep] <+: v.data ∨ [sep] <:+ v.data ∨ [sep, sep] <:+: v.data) :
    "" ∈ Split v sep := by
  have h2 : v.data = [] ∨ [sep] <+: v.data ∨ [sep] <:+ v.data ∨ [sep, sep] <:+: v.data := by
    rcases h with h | h
    · left; rw [h]
    · right; exact h
  exact List.mem_map.2 ⟨[], nil_mem_splitChars sep v.data h2, rfl⟩

theorem mem_Split_no_sep (sep : Char) (v t : String) (h : t ∈ Split v sep) :
    sep ∉ t.data := by
  obtain ⟨piece, hp, rfl⟩ := List.mem_map.1 h
  exact splitChars_piece_no_sep sep v.data piece hp

theorem range_false_of_sep_in_target (key target : String) (l : List Attribute)
    (h : delim key ∈ target.data) : HasAttr.range key target l = false := by
  by_contra hc
  have hc2 : HasAttr.range key target l = true := by simpa using hc
  obtain ⟨p, _, _, hv⟩ := (range_eq_true_iff key target l).1 hc2
  exact mem_Split_no_sep (delim key) p.Val target hv h

/-- C15: a target that contains the separator never matches: on a present node, whatever
its attributes, `HasAttr` is false for a key other than "style" and a target containing a
space, and false for the key "style" and a target containing ";". -/
theorem HasAttr_false_of_delim_in_target (key target : String) (node : Node)
    (h : node ≠ .nil) :
    (key ≠ "style" → ' ' ∈ target.data → HasAttr key target node = .ok false) ∧
      (';' ∈ target.data → HasAttr "style" target node = .ok false) := by
  constructor
  · intro hk hsp
    rw [HasAttr_present key target node h,
      range_false_of_sep_in_target key target node.attrs
        (by rw [delim_of_ne_style key hk]; exact hsp)]
  · intro hsc
    rw [HasAttr_present "style" target node h,
      range_false_of_sep_in_target "style" target node.attrs hsc]

theorem HasAttr_false_of_delim_in_target_witness :
    spanS1 ≠ .nil ∧ "class" ≠ "style" ∧ ' ' ∈ "a b".data ∧
      HasAttr "class" "a b" spanS1 = .ok false ∧
      spanS2 ≠ .nil ∧ ';' ∈ "display:none;color:red".data ∧
      HasAttr "style" "display:none;color:red" spanS2 = .ok false :=
  ⟨by decide, by decide, by decide,
   (HasAttr_false_of_delim_in_target "class" "a b" spanS1 (by decide)).1 (by decide)
     (by decide),
   by decide, by decide,
   (HasAttr_false_of_delim_in_target "style" "display:none;color:red" spanS2
     (by decide)).2 (by decide)⟩

/-- C17: `HasAttr` inspects every pair carrying the key, not only the first: on a present
node it returns, and it is true exactly when there is a pair with that key whose value,
split on ";" for "style" and on a single space otherwise, has the target among its
tokens, whichever position the pair has.  So on the pairs `class="a"`, `class="b"` it is
true for "b" although `Attr` returns "a". -/
theorem HasAttr_inspects_every_pair (key target : String) (node : Node) (h : node ≠ .nil) :
    (∃ b, HasAttr key target node = .ok b ∧
        (b = true ↔ ∃ p ∈ node.attrs, p.Key = key ∧
          target ∈ Split p.Val (if key = "style" then ';' else ' '))) ∧
      (∀ (pre post : List Attribute) (p : Attribute), node.attrs = pre ++ p :: post →
        p.Key = key → target ∈ Split p.Val (if key = "style" then ';' else ' ') →
        HasAttr key target node = .ok true) ∧
      (HasAttr "class" "b" dupClass = .ok true ∧ Attr "class" dupClass = .ok "a") := by
  have hiff := range_eq_true_iff key target node.attrs
  refine ⟨⟨_, HasAttr_present key target node h, hiff⟩, ?_, by decide, by decide⟩
  intro pre post p hsplit hk hv
  rw [HasAttr_present key target node h]
  congr 1
  exact hiff.2 ⟨p, by rw [hsplit]; simp, hk, hv⟩

theorem HasAttr_inspects_every_pair_witness :
    dupClass ≠ .nil ∧ dupClass.attrs = [attr "class" "a"] ++ attr "class" "b" :: [] ∧
      "b" ∈ Split (attr "class" "b").Val (if "class" = "style" then ';' else ' ') ∧
      HasAttr "class" "b" dupClass = .ok true :=
  ⟨by decide, by decide, by decide,
   (HasAttr_inspects_every_pair "class" "b" dupClass (by decide)).2.1
     [attr "class" "a"] [] (attr "class" "b") (by decide) rfl (by decide)⟩

/-- C18: the empty target matches empty tokens: on a present node having a pair with the
key whose value is empty, begins or ends with the separator of the key, or holds two
adjacent separators, `HasAttr` is true for the empty target; on a node without a pair for
the key it is false, although `Attr` returns the same empty string there as for a pair
that is present with an empty value. -/
theorem HasAttr_empty_target (key : String) (node : Node) (h : node ≠ .nil) :
    (∀ p ∈ node.attrs, p.Key = key →
        (p.Val = "" ∨ [delim key] <+: p.Val.data ∨ [delim key] <:+ p.Val.data ∨
          [delim key, delim key] <:+: p.Val.data) →
        HasAttr key "" node = .ok true) ∧
      ((∀ p ∈ node.attrs, p.Key ≠ key) →
        HasAttr key "" node = .ok false ∧ Attr key node = .ok "") ∧
      (∀ p, node.attrs.find? (fun q => decide (q.Key = key)) = some p → p.Val = "" →
        HasAttr key "" node = .ok true ∧ Attr key node = .ok "") := by
  have hiff := range_eq_true_iff key "" node.attrs
  have hpos : ∀ p ∈ node.attrs, p.Key = key →
      (p.Val = "" ∨ [delim key] <+: p.Val.data ∨ [delim key] <:+ p.Val.data ∨
        [delim key, delim key] <:+: p.Val.data) →
      HasAttr key "" node = .ok true := by
    intro p hp hk hshape
    rw [HasAttr_present key "" node h]
    congr 1
    exact hiff.2 ⟨p, hp, hk, empty_mem_Split (delim key) p.Val hshape⟩
  refine ⟨hpos, ?_, ?_⟩
  · intro hno
    constructor
    · rw [HasAttr_present key "" node h]
      congr 1
      by_contra hc
      have hc2 : HasAttr.range key "" node.attrs = true := by simpa using hc
      obtain ⟨p, hp, hk, _⟩ := hiff.1 hc2
      exact hno p hp hk
    · rw [Attr_present key node h, Attr_range_absent key node.attrs hno]
  · intro p hfind hval
    have hk : p.Key = key := by simpa using List.find?_some hfind
    refine ⟨hpos p (List.mem_of_find?_eq_some hfind) hk (Or.inl hval), ?_⟩
    rw [Attr_present key node h, Attr_range_eq, hfind]
    exact congrArg Except.ok hval

theorem HasAttr_empty_target_witness :
    (emptyClass ≠ .nil ∧ attr "class" "" ∈ emptyClass.attrs ∧
        HasAttr "class" "" emptyClass = .ok true ∧ Attr "class" emptyClass = .ok "") ∧
      (gapClass ≠ .nil ∧ attr "class" "a  b" ∈ gapClass.attrs ∧
        [delim "class", delim "class"] <:+: (attr "class" "a  b").Val.data ∧
        HasAttr "class" "" gapClass = .ok true) ∧
      (styleTrailing ≠ .nil ∧ attr "style" "color:red;" ∈ styleTrailing.attrs ∧
        [delim "style"] <:+ (attr "style" "color:red;").Val.data ∧
        HasAttr "style" "" styleTrailing = .ok true) ∧
      (sampleDoc ≠ .nil ∧ (∀ p ∈ sampleDoc.attrs, p.Key ≠ "class") ∧
        HasAttr "class" "" sampleDoc = .ok false ∧ Attr "class" sampleDoc = .ok "") :=
  ⟨⟨by decide, by decide,
    (HasAttr_empty_target "class" emptyClass (by decide)).2.2 (attr "class" "") (by decide)
      rfl⟩,
   ⟨by decide, by decide, by decide,
    (HasAttr_empty_target "class" gapClass (by decide)).1 (attr "class" "a  b") (by decide)
      rfl (Or.inr (Or.inr (Or.inr (by decide))))⟩,
   ⟨by decide, by decide, by decide,
    (HasAttr_empty_target "style" styleTrailing (by decide)).1 (attr "style" "color:red;")
      (by decide) rfl (Or.inr (Or.inr (Or.inl (by decide))))⟩,
   ⟨by decide, by decide,
    (HasAttr_empty_target "class" sampleDoc (by decide)).2.1 (by decide)⟩⟩

/-! ## Termination -/

theorem FindNodeAttr_loop_eq (k v : String) : ∀ c : Node,
    FindNodeAttr.loop k v c = firstFound (FindNodeAttr k v) (Node.chain c) := by
  intro c
  induction c with
  | nil => rw [FindNodeAttr.loop]; rfl
  | mk t d a fc ns _ ihs =>
    rw [FindNodeAttr.loop, Node.chain, firstFound, ihs]

theorem FindElementType_loop_eq (l : String) : ∀ c : Node,
    FindElementType.loop l c = firstFound (FindElementType l) (Node.chain c) := by
  intro c
  induction c with
  | nil => rw [FindElementType.loop]; rfl
  | mk t d a fc ns _ ihs =>
    rw [FindElementType.loop, Node.chain, firstFound, ihs]

theorem ParseNodeAttr_loop_eq {σ : Type} (k v : String) (parse : Node → σ → σ) :
    ∀ (c : Node) (s : σ),
    ParseNodeAttr.loop k v parse c s = visitEach (ParseNodeAttr k v parse) (Node.chain c) s := by
  intro c
  induction c with
  | nil => intro s; rw [ParseNodeAttr.loop]; rfl
  | mk t d a fc ns _ ihs =>
    intro s
    rw [ParseNodeAttr.loop, Node.chain, visitEach]
    cases ParseNodeAttr k v parse (.mk t d a fc ns) s with
    | error e => rfl
    | ok s1 => exact ihs s1

theorem chain_ne_nil : ∀ (c m : Node), m ∈ Node.chain c → m ≠ .nil := by
  intro c
  induction c with
  | nil => intro m hm; simp [Node.chain] at hm
  | mk t d a fc ns _ ihs =>
    intro m hm
    simp only [Node.chain, List.mem_cons] at hm
    rcases hm with e | e
    · rw [e]; simp
    · exact ihs m e

theorem length_le_flatMap (f : Node → List Node) : ∀ (l : List Node) (c : Node), c ∈ l →
    (f c).length ≤ (l.flatMap f).length := by
  intro l
  induction l with
  | nil => intro c hc; simp at hc
  | cons x xs ih =>
    intro c hc
    rw [List.flatMap_cons, List.length_append]
    rcases List.mem_cons.1 hc with e | e
    · rw [e]; omega
    · have := ih c e
      omega

/-- C16: on every tree (finite and acyclic, as every value of `Node` is) the three
traversals terminate: on a present node `FindNodeAttr`, `FindElementType` and
`ParseNodeAttr` return; each call of them calls itself on the children of its node only,
from `FirstChild` along `NextSibling`, and the subtree of every child is strictly smaller
than the subtree of the node. -/
theorem traversals_terminate (key value label : String) (n : Node) (h : n ≠ .nil) :
    ((∃ r, FindNodeAttr key value n = .ok r) ∧
        (∃ r, FindElementType label n = .ok r) ∧
        (∀ (σ : Type) (parse : Node → σ → σ) (s : σ),
          ∃ s1, ParseNodeAttr key value parse n s = .ok s1)) ∧
      (FindNodeAttr key value n
          = (match HasAttr key value n with
             | .error e => .error e
             | .ok true => .ok n
             | .ok false => firstFound (FindNodeAttr key value) (Node.children n)) ∧
        FindElementType label n
          = (if Node.isElement label n = true then .ok n
             else firstFound (FindElementType label) (Node.children n)) ∧
        (∀ (σ : Type) (parse : Node → σ → σ) (s : σ),
          ParseNodeAttr key value parse n s
            = (match HasAttr key value n with
               | .error e => .error e
               | .ok true =>
                 visitEach (ParseNodeAttr key value parse) (Node.children n) (parse n s)
               | .ok false =>
                 visitEach (ParseNodeAttr key value parse) (Node.children n) s))) ∧
      (∀ c ∈ Node.children n, c ≠ .nil ∧ Node.size c < Node.size n) := by
  refine ⟨⟨FindNodeAttr_total key value n h, FindElementType_total label n h,
    fun σ parse s => ⟨_, (ParseNodeAttr_aux key value parse n).2 h s⟩⟩, ?_, ?_⟩
  · cases n with
    | nil => exact absurd rfl h
    | mk t d a fc ns =>
      refine ⟨?_, ?_, ?_⟩
      · rw [FindNodeAttr, FindNodeAttr_loop_eq]
        rfl
      · rw [FindElementType, FindElementType_loop_eq]
        simp only [Node.isElement, decide_eq_true_eq]
        rfl
      · intro σ parse s
        rw [ParseNodeAttr, ParseNodeAttr_loop_eq, ParseNodeAttr_loop_eq]
        rfl
  · intro c hc
    refine ⟨?_, ?_⟩
    · cases n with
      | nil => exact absurd rfl h
      | mk t d a fc ns => exact chain_ne_nil fc c hc
    · have hlen := length_le_flatMap Node.preorder (Node.children n) c hc
      have hpre := preorder_eq_children n h
      simp only [Node.size]
      rw [hpre, List.length_cons]
      omega

theorem traversals_terminate_witness :
    sampleDoc ≠ .nil ∧
      (∃ r, FindNodeAttr "class" "b" sampleDoc = .ok r) ∧
      (∃ r, FindElementType "span" sampleDoc = .ok r) ∧
      (∃ count, ParseNodeAttr "class" "b" (fun _ count => count + 1) sampleDoc 0
        = .ok count) ∧
      Node.children sampleDoc = [text "span" divX, divX, spanS2] ∧
      (∀ c ∈ Node.children sampleDoc, c ≠ .nil ∧ Node.size c < Node.size sampleDoc) ∧
      Node.size sampleDoc = 5 :=
  ⟨by decide,
   (traversals_terminate "class" "b" "span" sampleDoc (by decide)).1.1,
   (traversals_terminate "class" "b" "span" sampleDoc (by decide)).1.2.1,
   (traversals_terminate "class" "b" "span" sampleDoc (by decide)).1.2.2 Nat
     (fun _ count => count + 1) 0,
   by decide,
   (traversals_terminate "class" "b" "span" sampleDoc (by decide)).2.2,
   by decide⟩

end Goop
